import Mathlib

/-!
Verification of the frame alignment and sampling engine of the vsesnap
repository.  The definitions below are shallow embeddings of the pure
arithmetic found in `screenshot_engine.py` (alignment, tolerance windows,
frame-set generation, fps parsing, filename sanitization) and of the
history reconstruction logic found in `vse_screenshot_gui.py`.  Python
machine arithmetic on frame indices is embedded as `Int`/`Nat`; the fps
values, which Python holds as floats, are embedded as exact rationals.
-/

/-- Python `int()` applied to a real-valued quantity: truncation toward
zero.  Used by `calculated_frame = int(aligned_frame * ratio)` in
`take_screenshots_enhanced_with_frames` (screenshot_engine.py line 665). -/
def pyInt (q : ℚ) : ℤ := if q < 0 then ⌈q⌉ else ⌊q⌋

/-- `ratio = video_fps / screenshot_fps` (screenshot_engine.py line 630).
Python raises `ZeroDivisionError` when the divisor is exactly zero; the
division itself never checks the sign of either operand. -/
def computeRatio (videoFps screenshotFps : ℚ) : Except String ℚ :=
  if screenshotFps = 0 then .error "ZeroDivisionError"
  else .ok (videoFps / screenshotFps)

/-- `need_fps_conversion = abs(ratio - 1.0) > 0.01`
(screenshot_engine.py line 633). -/
def needFpsConversion (ratio : ℚ) : Bool := decide ((1 : ℚ) / 100 < |ratio - 1|)

/-- Conversion path of the per-frame loop:
`calculated_frame = int(aligned_frame * ratio); base_frame = calculated_frame + video.offset`
(screenshot_engine.py lines 665-666). -/
def alignConverted (alignedFrame : ℕ) (ratio : ℚ) (offset : ℤ) : ℤ :=
  pyInt ((alignedFrame : ℚ) * ratio) + offset

/-- No-conversion path: `base_frame = aligned_frame + video.offset`
(screenshot_engine.py line 704). -/
def alignDirect (alignedFrame : ℕ) (offset : ℤ) : ℤ :=
  (alignedFrame : ℤ) + offset

/-- Tolerance window construction
(screenshot_engine.py lines 669-673 and 707-711):
`for offset in range(-video_tolerance, video_tolerance + 1):`
`  frame_num = base_frame + offset`
`  if 0 <= frame_num < video_total_frames: frames_to_capture.append(frame_num)`. -/
def toleranceWindow (base : ℤ) (tol : ℕ) (total : ℕ) : List ℤ :=
  ((List.range (2 * tol + 1)).map (fun (i : ℕ) => base - (tol : ℤ) + (i : ℤ))).filter
    (fun x => decide (0 ≤ x) && decide (x < (total : ℤ)))

/-- The ascending list of the integers of the half-open interval
`[lo, hi)`; used only to state specifications. -/
def intervalList (lo hi : ℤ) : List ℤ :=
  (List.range (hi - lo).toNat).map (fun (i : ℕ) => lo + (i : ℤ))

/-- Effective range start (screenshot_engine.py line 584):
`start_frame = max(0, frame_range_start)`. -/
def effStart (rangeStart : ℤ) : ℤ := max 0 rangeStart

/-- Effective range end (screenshot_engine.py lines 585-586):
`end_frame = frame_range_end if frame_range_end > 0 else total_frames`
then `end_frame = min(end_frame, total_frames)`. -/
def effEnd (totalFrames : ℕ) (rangeEnd : ℤ) : ℤ :=
  min (if 0 < rangeEnd then rangeEnd else (totalFrames : ℤ)) (totalFrames : ℤ)

/-- Fresh frame-set generation (screenshot_engine.py lines 584-599).
The run fails when the effective range is empty, otherwise the requested
count is clamped to the available frames and a random draw of that many
distinct indices is sorted and returned.  The draw performed by
`random.sample(range(start_frame, end_frame), count)` is external
nondeterminism and is passed in as `sample`; the contract that Python's
`random.sample` guarantees for it (its length is the clamped count and
it consists of distinct members of the range) appears as hypotheses of
the specification theorem. -/
def generateFreshFrames (totalFrames count : ℕ) (rangeStart rangeEnd : ℤ)
    (sample : List ℤ) : Except String (List ℤ) :=
  if effStart rangeStart ≥ effEnd totalFrames rangeEnd then .error "EmptyRange"
  else .ok (List.insertionSort (· ≤ ·) sample)

/-- One reference frame's capture on either per-frame path
(screenshot_engine.py lines 662-726): the base frame is computed by the
conversion or the direct formula, the tolerance window is built, and —
when the per-video tolerance is positive — the progress log indexes
`frames_to_capture[0]`, which raises an IndexError caught by the
per-frame handler whenever the window is empty. -/
def captureFrame (ratio : ℚ) (offset : ℤ) (tol total : ℕ) (alignedFrame : ℕ) :
    Except String (List ℤ) :=
  let base := if needFpsConversion ratio then alignConverted alignedFrame ratio offset
    else alignDirect alignedFrame offset
  let window := toleranceWindow base tol total
  if 0 < tol ∧ window = [] then .error "IndexError"
  else .ok window

/-- Per-source processing of `take_screenshots_enhanced_with_frames`
(screenshot_engine.py lines 607-747): the ratio computation
`video_fps / screenshot_fps` raises ZeroDivisionError exactly when the
screenshot fps is 0; per-frame failures are caught by the inner handler
and the frame loop continues, so they appear as inner `Except` values. -/
def processSource (videoFps screenshotFps : ℚ) (offset : ℤ) (tol total : ℕ)
    (frames : List ℕ) : Except String (List (Except String (List ℤ))) :=
  match computeRatio videoFps screenshotFps with
  | .error e => .error e
  | .ok ratio => .ok (frames.map (captureFrame ratio offset tol total))

/-- A video source as consumed by the per-source loop: video fps,
screenshot fps, offset, tolerance, total frames. -/
structure SourceParams where
  videoFps : ℚ
  screenshotFps : ℚ
  offset : ℤ
  tol : ℕ
  total : ℕ

/-- The per-source loop (screenshot_engine.py lines 604-751): each
iteration's body is wrapped in `try/except ... continue`, so every
source is processed regardless of its siblings' outcomes. -/
def processAllSources (sources : List SourceParams) (frames : List ℕ) :
    List (Except String (List (Except String (List ℤ)))) :=
  sources.map (fun s =>
    processSource s.videoFps s.screenshotFps s.offset s.tol s.total frames)

/-- The decimal digit characters used by Python's `"%d"` formatting. -/
def digitChar : ℕ → Char
  | 0 => '0'
  | 1 => '1'
  | 2 => '2'
  | 3 => '3'
  | 4 => '4'
  | 5 => '5'
  | 6 => '6'
  | 7 => '7'
  | 8 => '8'
  | _ => '9'

/-- Numeric value of a digit character (codepoint minus 48). -/
def charVal (c : Char) : ℕ := c.toNat - 48

/-- Decimal digits of `n`, most significant first, with enough fuel;
`natReprFuel (n+1) n` is total because a number's digit count never
exceeds the number itself plus one. -/
def natReprFuel : ℕ → ℕ → List Char
  | 0, _ => []
  | fuel + 1, n =>
    if n < 10 then [digitChar n]
    else natReprFuel fuel (n / 10) ++ [digitChar (n % 10)]

/-- Decimal representation of a natural number (Python `"%d"`). -/
def natRepr (n : ℕ) : List Char := natReprFuel (n + 1) n

/-- Value of a digit string: the accumulation Python's `int` performs. -/
def digitsVal (l : List Char) : ℕ := l.foldl (fun acc c => 10 * acc + charVal c) 0

/-- Python `f"{n:06d}"`: decimal digits left-padded with zeros to width 6
(screenshot_engine.py line 696). -/
def pad6 (n : ℕ) : List Char :=
  List.replicate (6 - (natRepr n).length) '0' ++ natRepr n

/-- Python `int(parts[0])` as exercised during history reconstruction:
on a digit string it yields its decimal value, on a string that is not a
plain numeral it raises ValueError (modelled as `none`; the reconstructed
filename fields fed to it are always digit strings). -/
def parseDecimal (l : List Char) : Option ℕ :=
  if l ≠ [] ∧ l.all Char.isDigit then some (digitsVal l) else none

/-- Python `str.split(sep)` with a one-character separator
(as in `parts = filename.split('_')`, vse_screenshot_gui.py line 600). -/
def splitOnChar (sep : Char) : List Char → List (List Char)
  | [] => [[]]
  | c :: cs =>
    if c = sep then [] :: splitOnChar sep cs
    else
      match splitOnChar sep cs with
      | [] => [[c]]
      | r :: rs => (c :: r) :: rs

/-- The `.png` extension as a character list. -/
def pngExt : List Char := ['.', 'p', 'n', 'g']

/-- Output artifact name written by the sampling run
(screenshot_engine.py line 696):
`filename = f"{aligned_frame:06d}_{original_frame:06d}_{safe_name}.png"`. -/
def mkFilename (alignedFrame sourceFrame : ℕ) (safeName : List Char) : List Char :=
  pad6 alignedFrame ++ '_' :: (pad6 sourceFrame ++ '_' :: (safeName ++ pngExt))

/-- History reconstruction of one directory entry
(vse_screenshot_gui.py lines 597-606): only `.png` files are considered;
the name is split on `'_'`; at least two parts are required; the first
part is parsed as an integer, a failure excluding the file. -/
def parseAlignedFrame (filename : List Char) : Option ℕ :=
  if pngExt <:+ filename then
    match splitOnChar '_' filename with
    | p0 :: _ :: _ => parseDecimal p0
    | _ => none
  else none

/-- Frame recovery from one directory listing
(vse_screenshot_gui.py lines 596-610): the parsed aligned frames are
collected into a Python `set` (modelled by `dedup`, whose sorted image
is listing-order free) and returned sorted ascending. -/
def scanFolderFrames (files : List (List Char)) : List ℕ :=
  List.insertionSort (· ≤ ·) (files.filterMap parseAlignedFrame).dedup

/-- A history record as kept in `self.screenshot_history`: the dict keys
`name`, `frames`, `timestamp` and the optional `folder` key (present
only on entries synthesized by the folder scan; `h.get('folder')` is
`None` — here `none` — when the key is absent). -/
structure HistoryEntry where
  name : List Char
  frames : List ℕ
  timestamp : List Char
  folder : Option (List Char)
deriving DecidableEq

/-- The human label `f"{base} ({count}张)"` used for history entries
(vse_screenshot_gui.py lines 613 and 1420). -/
def historyName (base : List Char) (count : ℕ) : List Char :=
  base ++ ' ' :: '(' :: (natRepr count ++ ['张', ')'])

/-- Recording a fresh sampling run at the end of `start_screenshot`
(vse_screenshot_gui.py lines 1419-1425): the appended dict carries
`name`, `frames` and `timestamp` keys but no `folder` key, although the
output directory of the run is named by the timestamp. -/
def recordFreshRun (store : List HistoryEntry) (timestamp : List Char)
    (count : ℕ) (frames : List ℕ) : List HistoryEntry :=
  store ++ [⟨historyName timestamp count, frames, timestamp, none⟩]

/-- `scan_screenshot_folders` (vse_screenshot_gui.py lines 584-620): for
each subdirectory, skip it when some stored entry's `folder` key equals
the directory name; otherwise parse its filenames, and when at least one
frame is recovered append a new entry (with the `folder` key set) before
moving on to the next directory. -/
def scanFolders (store : List HistoryEntry)
    (dirs : List (List Char × List (List Char))) : List HistoryEntry :=
  match dirs with
  | [] => store
  | (folderName, files) :: rest =>
    if store.any (fun h => decide (h.folder = some folderName)) then
      scanFolders store rest
    else
      match scanFolderFrames files with
      | [] => scanFolders store rest
      | f :: fs =>
        scanFolders
          (store ++ [⟨historyName folderName (f :: fs).length, f :: fs,
            folderName, some folderName⟩]) rest

/-- Python `str.rfind(c)`: greatest index holding `c`, or `-1`. -/
def rfind (c : Char) : List Char → ℤ
  | [] => -1
  | x :: xs =>
    if 0 ≤ rfind c xs then rfind c xs + 1
    else if x = c then 0 else -1

/-- The characters `'<>:"/\\|?*'` stripped by `sanitize_filename`
(screenshot_engine.py line 273). -/
def illegalChars : List Char := ['<', '>', ':', '"', '/', '\\', '|', '?', '*']

/-- The root part of `os.path.splitext(filename)` under Windows path
conventions (`ntpath`, separators `'\\'` and `'/'`): the extension
starts at the last dot, provided that dot lies after the last separator
and the basename up to it is not entirely dots. -/
def splitextRoot (s : List Char) : List Char :=
  let sepIdx := max (rfind '\\' s) (rfind '/' s)
  let dotIdx := rfind '.' s
  if sepIdx < dotIdx then
    if (List.range s.length).any (fun j =>
        decide (sepIdx < (j : ℤ)) && decide ((j : ℤ) < dotIdx) &&
          (s.getD j '.' != '.')) then
      s.take dotIdx.toNat
    else s
  else s

/-- `sanitize_filename` (screenshot_engine.py lines 259-277): drop the
extension with `os.path.splitext`, then run
`name.replace(char, '_')` for each illegal character in order. -/
def sanitize_filename (s : List Char) : List Char :=
  illegalChars.foldl
    (fun acc c => acc.map (fun x => if x = c then '_' else x)) (splitextRoot s)

/-- The match of the regex `(\d+\.?\d*)` anchored at a position whose
first character is a digit: the maximal digit run, one optional dot,
then another maximal digit run. -/
def matchNumberAt (l : List Char) : List Char :=
  let d1 := l.takeWhile Char.isDigit
  let r1 := l.dropWhile Char.isDigit
  if r1.head? = some '.' then d1 ++ '.' :: r1.tail.takeWhile Char.isDigit
  else d1

/-- `re.search(r'(\d+\.?\d*)', s)` (screenshot_engine.py line 508):
the leftmost match, which must begin at the first digit of the text;
`none` when the text has no digit. -/
def regexSearchNumber : List Char → Option (List Char)
  | [] => none
  | c :: cs =>
    if c.isDigit then some (matchNumberAt (c :: cs))
    else regexSearchNumber cs

/-- Python `float(...)` restricted to the sublanguage `\d+(\.\d*)?` that
the regex group can produce (an integer part and an optional fraction);
a string outside the accepted forms raises ValueError, modelled `none`. -/
def floatOfMatch (m : List Char) : Option ℚ :=
  match splitOnChar '.' m with
  | [a] =>
    if a ≠ [] ∧ a.all Char.isDigit then some ((digitsVal a : ℚ)) else none
  | [a, b] =>
    if (a ≠ [] ∨ b ≠ []) ∧ a.all Char.isDigit ∧ b.all Char.isDigit then
      some ((digitsVal a : ℚ) + (digitsVal b : ℚ) / (10 : ℚ) ^ b.length)
    else none
  | _ => none

/-- `parse_screenshot_fps` (screenshot_engine.py lines 493-511).  The
semantics of Python's full `float()` grammar on the raw setting string
is external to the alignment arithmetic and is abstracted as the
`pyFloat` argument (`none` modelling the ValueError/TypeError the code
catches); the regex fallback and the default of 25.0 are modelled
directly. -/
def parse_screenshot_fps (pyFloat : List Char → Option ℚ) (s : List Char) :
    Except String ℚ :=
  match pyFloat s with
  | some v => .ok v
  | none =>
    match regexSearchNumber s with
    | some m =>
      match floatOfMatch m with
      | some v => .ok v
      | none => .error "ValueError"
    | none => .ok 25

theorem mem_intervalList {lo hi x : ℤ} :
    x ∈ intervalList lo hi ↔ lo ≤ x ∧ x < hi := by
  constructor
  · intro hx
    obtain ⟨i, him, hEq⟩ := List.mem_map.mp hx
    have hi' := List.mem_range.mp him
    omega
  · rintro ⟨h1, h2⟩
    exact List.mem_map.mpr ⟨(x - lo).toNat, List.mem_range.mpr (by omega), by omega⟩

theorem sorted_intervalList (lo hi : ℤ) :
    List.Sorted (· < ·) (intervalList lo hi) := by
  unfold intervalList
  rw [List.Sorted, List.pairwise_map]
  exact (List.pairwise_lt_range _).imp (fun {a b} h => by omega)

theorem nodup_intervalList (lo hi : ℤ) : (intervalList lo hi).Nodup :=
  (sorted_intervalList lo hi).imp (fun h => ne_of_lt h)

theorem length_intervalList (lo hi : ℤ) :
    (intervalList lo hi).length = (hi - lo).toNat := by
  unfold intervalList
  rw [List.length_map, List.length_range]

theorem sorted_toleranceWindow (base : ℤ) (tol total : ℕ) :
    List.Sorted (· < ·) (toleranceWindow base tol total) := by
  unfold toleranceWindow
  refine List.Sorted.filter _ ?_
  rw [List.Sorted, List.pairwise_map]
  exact (List.pairwise_lt_range _).imp (fun {a b} h => by omega)

theorem mem_toleranceWindow {base : ℤ} {tol total : ℕ} {x : ℤ} :
    x ∈ toleranceWindow base tol total ↔
      max 0 (base - tol) ≤ x ∧ x < min (total : ℤ) (base + tol + 1) := by
  constructor
  · intro hx
    obtain ⟨hmem, hcond⟩ := List.mem_filter.mp hx
    obtain ⟨i, him, hEq⟩ := List.mem_map.mp hmem
    have hi' := List.mem_range.mp him
    simp only [Bool.and_eq_true, decide_eq_true_eq] at hcond
    omega
  · rintro ⟨h1, h2⟩
    refine List.mem_filter.mpr ⟨List.mem_map.mpr
      ⟨(x - (base - (tol : ℤ))).toNat, List.mem_range.mpr (by omega), by omega⟩, ?_⟩
    simp only [Bool.and_eq_true, decide_eq_true_eq]
    omega

theorem toleranceWindow_eq_intervalList (base : ℤ) (tol total : ℕ) :
    toleranceWindow base tol total =
      intervalList (max 0 (base - tol)) (min (total : ℤ) (base + tol + 1)) := by
  refine List.eq_of_perm_of_sorted ?_
    ((sorted_toleranceWindow base tol total).imp (fun h => le_of_lt h))
    ((sorted_intervalList _ _).imp (fun h => le_of_lt h))
  refine (List.perm_ext_iff_of_nodup
    ((sorted_toleranceWindow base tol total).imp (fun h => ne_of_lt h))
    (nodup_intervalList _ _)).mpr ?_
  intro a
  rw [mem_toleranceWindow, mem_intervalList]

/-- A singleton window: the integers of `[x, x+1)` are exactly `[x]`. -/
theorem intervalList_singleton (x : ℤ) : intervalList x (x + 1) = [x] := by
  unfold intervalList
  rw [show x + 1 - x = 1 by ring, show (1 : ℤ).toNat = 1 from rfl,
    show List.range 1 = [0] from rfl]
  simp

/-- C1: for every reference frame index `r ≥ 0`, positive source fps and
positive reference (screenshot) fps, and every integer offset, the
alignment mapping of the conversion path is deterministic (it is a
function of its arguments) and equals
`floor(r * sourceFps / referenceFps) + offset`, the truncation of the
non-negative product. -/
theorem alignConverted_eq_floor (r : ℕ) (videoFps screenshotFps : ℚ) (offset : ℤ)
    (hv : 0 < videoFps) (hs : 0 < screenshotFps) :
    alignConverted r (videoFps / screenshotFps) offset =
      ⌊(r : ℚ) * videoFps / screenshotFps⌋ + offset := by
  unfold alignConverted pyInt
  have h0 : (0 : ℚ) ≤ (r : ℚ) * (videoFps / screenshotFps) :=
    mul_nonneg (Nat.cast_nonneg r) (div_pos hv hs).le
  rw [if_neg (not_lt.mpr h0), mul_div_assoc]

/-- Witness for C1 at the fps pair of the spec scenario. -/
theorem alignConverted_eq_floor_witness :
    (0 : ℚ) < 2997 / 100 ∧ (0 : ℚ) < 25 ∧
      alignConverted 52986 ((2997 / 100) / 25) 332 =
        ⌊(52986 : ℚ) * (2997 / 100) / 25⌋ + 332 :=
  ⟨by norm_num, by norm_num,
    alignConverted_eq_floor 52986 (2997 / 100) 25 332 (by norm_num) (by norm_num)⟩

/-- C2: the tolerance expansion returns exactly the integers of the
clipped interval `[max(0, f - t), min(total, f + t + 1))`, hence
`min(2t+1, size of that interval)` values, sorted ascending with no
duplicates; for `t = 0` with `f` in the domain the window is `[f]`. -/
theorem toleranceWindow_spec (f : ℤ) (t total : ℕ) :
    toleranceWindow f t total =
        intervalList (max 0 (f - t)) (min (total : ℤ) (f + t + 1)) ∧
      (toleranceWindow f t total).length =
        min (2 * t + 1) (min (total : ℤ) (f + t + 1) - max 0 (f - t)).toNat ∧
      List.Sorted (· < ·) (toleranceWindow f t total) ∧
      (toleranceWindow f t total).Nodup ∧
      (t = 0 → 0 ≤ f → f < (total : ℤ) → toleranceWindow f t total = [f]) := by
  refine ⟨toleranceWindow_eq_intervalList f t total, ?_, sorted_toleranceWindow f t total,
    (sorted_toleranceWindow f t total).imp (fun h => ne_of_lt h), ?_⟩
  · rw [toleranceWindow_eq_intervalList, length_intervalList]
    omega
  · intro ht h0 hlt
    subst ht
    rw [toleranceWindow_eq_intervalList]
    have h1 : max 0 (f - ((0 : ℕ) : ℤ)) = f := by omega
    have h2 : min ((total : ℕ) : ℤ) (f + ((0 : ℕ) : ℤ) + 1) = f + 1 := by omega
    rw [h1, h2, intervalList_singleton]

/-- Witness for C2's conditional part: with `t = 0` and `f = 5` inside a
10-frame domain the window is the singleton `[5]`. -/
theorem toleranceWindow_spec_witness : toleranceWindow 5 0 10 = [5] :=
  (toleranceWindow_spec 5 0 10).2.2.2.2 rfl (by norm_num) (by norm_num)

/-- C4 counterexample: with `referenceFps = 25`, `sourceFps = 29.97` the
ratio is `1.1988`, but `floor(52986 * 1.1988)` is `63519`, not `63851`
as the claim states; `63851` is the value only after adding the offset
`332`, and the resulting base differs from the claimed `64183`. -/
theorem scenarioA_counterexample :
    (2997 / 100 : ℚ) / 25 = 11988 / 10000 ∧
      pyInt ((52986 : ℚ) * ((2997 / 100) / 25)) = 63519 ∧
      (63519 : ℤ) ≠ 63851 ∧
      alignConverted 52986 ((2997 / 100) / 25) 332 = 63851 ∧
      (63851 : ℤ) ≠ 64183 := by
  have hfloor : pyInt ((52986 : ℚ) * ((2997 / 100) / 25)) = 63519 := by
    unfold pyInt
    rw [if_neg (by norm_num)]
    norm_num
  refine ⟨by norm_num, hfloor, by norm_num, ?_, by norm_num⟩
  unfold alignConverted
  rw [show pyInt ((52986 : ℕ) * ((2997 / 100 : ℚ) / 25)) = 63519 from hfloor]
  norm_num

/-- C4 amended: on the concrete scenario inputs the conversion path
computes ratio `1.1988`, a calculated frame `floor(52986 * 1.1988) =
63519`, a base source frame `63519 + 332 = 63851`, and a 7-frame
tolerance window `[63848 .. 63854]` after clipping to any domain that
contains it. -/
theorem scenarioA_amended (total : ℕ) (h : 63855 ≤ total) :
    needFpsConversion ((2997 / 100) / 25) = true ∧
      pyInt ((52986 : ℚ) * ((2997 / 100) / 25)) = 63519 ∧
      alignConverted 52986 ((2997 / 100) / 25) 332 = 63851 ∧
      toleranceWindow 63851 3 total =
        [63848, 63849, 63850, 63851, 63852, 63853, 63854] := by
  have hfloor : pyInt ((52986 : ℚ) * ((2997 / 100) / 25)) = 63519 := by
    unfold pyInt
    rw [if_neg (by norm_num)]
    norm_num
  refine ⟨?_, hfloor, ?_, ?_⟩
  · unfold needFpsConversion
    rw [decide_eq_true_eq]
    rw [show |(2997 / 100 : ℚ) / 25 - 1| = 497 / 2500 by rw [abs_eq] <;> norm_num]
    norm_num
  · unfold alignConverted
    rw [show pyInt ((52986 : ℕ) * ((2997 / 100 : ℚ) / 25)) = 63519 from hfloor]
    norm_num
  · rw [toleranceWindow_eq_intervalList]
    have h1 : max 0 ((63851 : ℤ) - ((3 : ℕ) : ℤ)) = 63848 := by norm_num
    have h2 : min ((total : ℕ) : ℤ) ((63851 : ℤ) + ((3 : ℕ) : ℤ) + 1) = 63855 := by omega
    rw [h1, h2]
    rfl

/-- Witness for C4's amended claim at `total = 70000`. -/
theorem scenarioA_amended_witness :
    toleranceWindow 63851 3 70000 =
      [63848, 63849, 63850, 63851, 63852, 63853, 63854] :=
  (scenarioA_amended 70000 (by norm_num)).2.2.2

/-- C6 counterexample: `ratio = 1.01` qualifies for the no-conversion
path (`|ratio - 1| <= 0.01`), yet at reference frame `100` the applied
mapping `r + offset` differs from the ratio formula
`floor(r * ratio) + offset`. -/
theorem noConversion_counterexample :
    needFpsConversion (101 / 100) = false ∧
      alignDirect 100 0 ≠ alignConverted 100 (101 / 100) 0 := by
  constructor
  · unfold needFpsConversion
    rw [decide_eq_false_iff_not, not_lt]
    rw [show |(101 / 100 : ℚ) - 1| = 1 / 100 by rw [abs_eq] <;> norm_num]
  · unfold alignDirect alignConverted pyInt
    rw [if_neg (by norm_num)]
    norm_num

/-- C6 amended: for a ratio on the no-conversion path, omitting the
ratio multiplication agrees with the ratio formula at every reference
frame if and only if the ratio is exactly 1. -/
theorem noConversion_equiv_iff (ratio : ℚ) (h : needFpsConversion ratio = false) :
    (∀ (r : ℕ) (offset : ℤ), alignDirect r offset = alignConverted r ratio offset) ↔
      ratio = 1 := by
  have habs : |ratio - 1| ≤ 1 / 100 := not_lt.mp (of_decide_eq_false h)
  obtain ⟨hlo, hhi⟩ := abs_le.mp habs
  have hpos : 0 < ratio := by linarith
  constructor
  · intro H
    by_contra hne
    rcases lt_or_gt_of_ne hne with hlt | hgt
    · have H1 := H 1 0
      unfold alignDirect alignConverted pyInt at H1
      rw [if_neg (not_lt.mpr (by positivity))] at H1
      have hfl : ⌊(1 : ℕ) * ratio⌋ = 0 := by
        rw [Nat.cast_one, one_mul]
        exact Int.floor_eq_zero_iff.mpr ⟨hpos.le, hlt⟩
      rw [hfl] at H1
      norm_num at H1
    · set d : ℚ := ratio - 1 with hd
      have hdpos : 0 < d := by simp only [hd]; linarith
      set r : ℕ := ⌈(1 : ℚ) / d⌉₊ with hr
      have hrge : (1 : ℚ) / d ≤ (r : ℚ) := Nat.le_ceil _
      have hrd : 1 ≤ (r : ℚ) * d := by
        rw [div_le_iff₀ hdpos] at hrge
        linarith
      have hval : (r : ℚ) + 1 ≤ (r : ℚ) * ratio := by
        have hexp : (r : ℚ) * ratio = (r : ℚ) + (r : ℚ) * d := by
          simp only [hd]; ring
        linarith
      have hfl : (r : ℤ) + 1 ≤ ⌊(r : ℚ) * ratio⌋ := by
        apply Int.le_floor.mpr
        push_cast
        linarith
      have H2 := H r 0
      unfold alignDirect alignConverted pyInt at H2
      rw [if_neg (not_lt.mpr (by positivity))] at H2
      omega
  · rintro rfl
    intro r offset
    unfold alignDirect alignConverted pyInt
    rw [mul_one, if_neg (not_lt.mpr (by positivity)), Int.floor_natCast]

/-- Witness for C6's amended claim at `ratio = 1`. -/
theorem noConversion_equiv_iff_witness :
    needFpsConversion 1 = false ∧ alignDirect 7 3 = alignConverted 7 (1 : ℚ) 3 := by
  have h : needFpsConversion (1 : ℚ) = false := by
    unfold needFpsConversion
    rw [decide_eq_false_iff_not, not_lt]
    norm_num
  exact ⟨h, ((noConversion_equiv_iff 1 h).mpr rfl) 7 3⟩

/-- C3: fresh generation draws from the effective range
`[max(0, rangeStart), min(rangeEnd if rangeEnd > 0 else total, total))`;
it fails with `EmptyRange` when the effective start is at or past the
effective end; when `count` is at least the number of frames in range it
returns all indices of the range sorted ascending; otherwise it returns
exactly `count` distinct in-range indices, sorted ascending, never more
than requested. -/
theorem generateFreshFrames_spec (total count : ℕ) (rs re : ℤ) (sample : List ℤ)
    (hlen : sample.length = min count (effEnd total re - effStart rs).toNat)
    (hnd : sample.Nodup)
    (hmem : ∀ x ∈ sample, effStart rs ≤ x ∧ x < effEnd total re) :
    (effStart rs ≥ effEnd total re →
      generateFreshFrames total count rs re sample = .error "EmptyRange") ∧
    (effStart rs < effEnd total re →
      ∃ l, generateFreshFrames total count rs re sample = .ok l ∧
        List.Sorted (· ≤ ·) l ∧ l.Nodup ∧
        l.length = min count (effEnd total re - effStart rs).toNat ∧
        (∀ x ∈ l, effStart rs ≤ x ∧ x < effEnd total re) ∧
        ((effEnd total re - effStart rs).toNat ≤ count →
          l = intervalList (effStart rs) (effEnd total re))) := by
  constructor
  · intro hge
    unfold generateFreshFrames
    rw [if_pos hge]
  · intro hlt
    unfold generateFreshFrames
    rw [if_neg (not_le.mpr hlt)]
    have hperm : List.Perm (List.insertionSort (· ≤ ·) sample) sample :=
      List.perm_insertionSort _ sample
    refine ⟨List.insertionSort (· ≤ ·) sample, rfl,
      List.sorted_insertionSort _ sample, hperm.nodup_iff.mpr hnd, ?_, ?_, ?_⟩
    · rw [hperm.length_eq, hlen]
    · intro x hx
      exact hmem x (hperm.mem_iff.mp hx)
    · intro hcount
      have hlen' : (List.insertionSort (· ≤ ·) sample).length =
          (effEnd total re - effStart rs).toNat := by
        rw [hperm.length_eq, hlen]
        omega
      have hsub : List.insertionSort (· ≤ ·) sample ⊆
          intervalList (effStart rs) (effEnd total re) := by
        intro x hx
        rw [mem_intervalList]
        exact hmem x (hperm.mem_iff.mp hx)
      have hsubperm := List.subperm_of_subset (hperm.nodup_iff.mpr hnd) hsub
      have hperm2 : List.Perm (List.insertionSort (· ≤ ·) sample)
          (intervalList (effStart rs) (effEnd total re)) :=
        hsubperm.perm_of_length_le (by rw [length_intervalList, hlen'])
      exact List.eq_of_perm_of_sorted hperm2 (List.sorted_insertionSort _ sample)
        ((sorted_intervalList _ _).imp (fun h => le_of_lt h))

/-- Witness for C3 on a concrete over-requested draw: `count = 5` inside
the four-frame effective range `[2, 6)` returns all four indices. -/
theorem generateFreshFrames_spec_witness :
    generateFreshFrames 10 5 2 6 [5, 2, 4, 3] = .ok [2, 3, 4, 5] := by
  obtain ⟨-, h2⟩ :=
    generateFreshFrames_spec 10 5 2 6 [5, 2, 4, 3] (by decide) (by decide) (by decide)
  obtain ⟨l, hgen, -, -, -, -, hall⟩ := h2 (by decide)
  rw [hgen, hall (by decide)]
  rfl

/-- C7 counterexample: `screenshotFps = -25` is non-positive, yet the
per-source alignment does not fail — the source is processed to
completion (its out-of-range windows are merely empty), contradicting
the claim that any non-positive fps raises an InvalidClockRate
condition fatal to that source. -/
theorem invalidClockRate_counterexample :
    (-25 : ℚ) ≤ 0 ∧
      processSource 25 (-25) 0 0 100 [10] = .ok [.ok []] := by
  refine ⟨by norm_num, ?_⟩
  unfold processSource computeRatio
  rw [if_neg (by norm_num : ¬(-25 : ℚ) = 0)]
  have hr : (25 : ℚ) / (-25) = -1 := by norm_num
  rw [hr]
  have hconv : needFpsConversion (-1) = true := by
    unfold needFpsConversion
    rw [decide_eq_true_eq]
    rw [show |(-1 : ℚ) - 1| = 2 by rw [abs_eq] <;> norm_num]
    norm_num
  have hcap : captureFrame (-1) 0 0 100 10 = .ok [] := by
    unfold captureFrame
    rw [hconv]
    have hbase : alignConverted 10 (-1) 0 = -10 := by
      unfold alignConverted pyInt
      rw [if_pos (by norm_num)]
      rw [show ((10 : ℕ) : ℚ) * (-1) = ((-10 : ℤ) : ℚ) by push_cast; ring]
      rw [Int.ceil_intCast]
      ring
    simp only [if_true]
    rw [hbase]
    rfl
  simp only [List.map_cons, List.map_nil, hcap]

/-- C7 amended: the per-source alignment fails (with Python's
ZeroDivisionError standing for the InvalidClockRate condition) exactly
when the screenshot fps is 0 — a negative fps or a non-positive video
fps is accepted silently — and that failure is confined to its source:
the run maps over all sources independently. -/
theorem invalidClockRate_amended (videoFps screenshotFps : ℚ) (offset : ℤ)
    (tol total : ℕ) (frames : List ℕ) :
    ((∃ e, processSource videoFps screenshotFps offset tol total frames = .error e) ↔
        screenshotFps = 0) ∧
      (∀ (pre post : List SourceParams) (s : SourceParams),
        processAllSources (pre ++ s :: post) frames =
          processAllSources pre frames ++
            processSource s.videoFps s.screenshotFps s.offset s.tol s.total frames ::
              processAllSources post frames) := by
  constructor
  · constructor
    · rintro ⟨e, he⟩
      by_contra hne
      unfold processSource computeRatio at he
      rw [if_neg hne] at he
      simp at he
    · rintro rfl
      refine ⟨"ZeroDivisionError", ?_⟩
      unfold processSource computeRatio
      rw [if_pos rfl]
  · intro pre post s
    unfold processAllSources
    rw [List.map_append, List.map_cons]

/-- Witness for C7's amended claim: a zero screenshot fps fails, and in
a two-source run the sibling source with valid fps is still processed. -/
theorem invalidClockRate_amended_witness :
    (∃ e, processSource 25 0 0 0 100 [10] = .error e) ∧
      processAllSources [⟨25, 0, 0, 0, 100⟩, ⟨25, 25, 0, 0, 100⟩] [10] =
        processSource 25 0 0 0 100 [10] ::
          processAllSources [⟨25, 25, 0, 0, 100⟩] [10] := by
  constructor
  · exact (invalidClockRate_amended 25 0 0 0 100 [10]).1.mpr rfl
  · exact (invalidClockRate_amended 25 0 0 0 100 [10]).2 [] [⟨25, 25, 0, 0, 100⟩] ⟨25, 0, 0, 0, 100⟩

theorem charVal_digitChar {d : ℕ} (h : d < 10) : charVal (digitChar d) = d := by
  interval_cases d <;> rfl

theorem isDigit_digitChar (d : ℕ) : (digitChar d).isDigit = true := by
  rcases d with _ | _ | _ | _ | _ | _ | _ | _ | _ | d <;> rfl

theorem digitsVal_append_digit (l : List Char) (c : Char) :
    digitsVal (l ++ [c]) = 10 * digitsVal l + charVal c := by
  unfold digitsVal
  rw [List.foldl_append]
  rfl

theorem digitsVal_natReprFuel : ∀ fuel n, n < fuel →
    digitsVal (natReprFuel fuel n) = n := by
  intro fuel
  induction fuel with
  | zero => omega
  | succ fuel ih =>
    intro n hn
    unfold natReprFuel
    by_cases h : n < 10
    · rw [if_pos h]
      show 10 * 0 + charVal (digitChar n) = n
      rw [charVal_digitChar h]
      omega
    · rw [if_neg h, digitsVal_append_digit, ih (n / 10) (by omega),
        charVal_digitChar (Nat.mod_lt n (by norm_num))]
      omega

theorem natReprFuel_ne_nil : ∀ fuel n, n < fuel → natReprFuel fuel n ≠ [] := by
  intro fuel
  induction fuel with
  | zero => omega
  | succ fuel _ =>
    intro n _
    unfold natReprFuel
    by_cases h : n < 10
    · rw [if_pos h]
      simp
    · rw [if_neg h]
      simp

theorem natReprFuel_digits : ∀ fuel n, ∀ c ∈ natReprFuel fuel n, c.isDigit = true := by
  intro fuel
  induction fuel with
  | zero =>
    intro n c hc
    simp [natReprFuel] at hc
  | succ fuel ih =>
    intro n c hc
    unfold natReprFuel at hc
    by_cases h : n < 10
    · rw [if_pos h] at hc
      rw [List.mem_singleton] at hc
      rw [hc]
      exact isDigit_digitChar n
    · rw [if_neg h] at hc
      rcases List.mem_append.mp hc with h1 | h2
      · exact ih (n / 10) c h1
      · rw [List.mem_singleton] at h2
        rw [h2]
        exact isDigit_digitChar (n % 10)

theorem digitsVal_natRepr (n : ℕ) : digitsVal (natRepr n) = n :=
  digitsVal_natReprFuel (n + 1) n (Nat.lt_succ_self n)

theorem natRepr_ne_nil (n : ℕ) : natRepr n ≠ [] :=
  natReprFuel_ne_nil (n + 1) n (Nat.lt_succ_self n)

theorem natRepr_digits (n : ℕ) : ∀ c ∈ natRepr n, c.isDigit = true :=
  natReprFuel_digits (n + 1) n

theorem digitsVal_replicate_zero_append (k : ℕ) (l : List Char) :
    digitsVal (List.replicate k '0' ++ l) = digitsVal l := by
  induction k with
  | zero => rfl
  | succ k ih =>
    show digitsVal ('0' :: (List.replicate k '0' ++ l)) = digitsVal l
    unfold digitsVal at ih ⊢
    rw [List.foldl_cons]
    exact ih

theorem pad6_digits (n : ℕ) : ∀ c ∈ pad6 n, c.isDigit = true := by
  intro c hc
  rcases List.mem_append.mp hc with h1 | h2
  · rw [List.eq_of_mem_replicate h1]
    rfl
  · exact natRepr_digits n c h2

theorem pad6_ne_nil (n : ℕ) : pad6 n ≠ [] := by
  intro h
  exact natRepr_ne_nil n (List.append_eq_nil.mp h).2

theorem digitsVal_pad6 (n : ℕ) : digitsVal (pad6 n) = n := by
  unfold pad6
  rw [digitsVal_replicate_zero_append, digitsVal_natRepr]

theorem parseDecimal_pad6 (n : ℕ) : parseDecimal (pad6 n) = some n := by
  unfold parseDecimal
  rw [if_pos ⟨pad6_ne_nil n, List.all_eq_true.mpr (pad6_digits n)⟩, digitsVal_pad6]

theorem digit_ne_of_not_digit {c x : Char} (hc : c.isDigit = true)
    (hx : x.isDigit = false) : c ≠ x := by
  intro h
  rw [h, hx] at hc
  exact Bool.false_ne_true hc

theorem splitOnChar_ne_nil (sep : Char) : ∀ l, splitOnChar sep l ≠ [] := by
  intro l
  induction l with
  | nil => simp [splitOnChar]
  | cons c cs ih =>
    unfold splitOnChar
    by_cases h : c = sep
    · rw [if_pos h]
      simp
    · rw [if_neg h]
      rcases hsplit : splitOnChar sep cs with _ | ⟨r, rs⟩
      · exact absurd hsplit ih
      · simp

theorem splitOnChar_append_sep (sep : Char) (xs rest : List Char)
    (h : ∀ c ∈ xs, c ≠ sep) :
    splitOnChar sep (xs ++ sep :: rest) = xs :: splitOnChar sep rest := by
  induction xs with
  | nil =>
    show splitOnChar sep (sep :: rest) = [] :: splitOnChar sep rest
    rw [splitOnChar, if_pos rfl]
  | cons x xs ih =>
    have hx : x ≠ sep := h x (List.mem_cons_self x xs)
    have ih' := ih (fun c hc => h c (List.mem_cons_of_mem x hc))
    show splitOnChar sep (x :: (xs ++ sep :: rest)) = (x :: xs) :: splitOnChar sep rest
    rw [splitOnChar, if_neg hx, ih']

theorem splitOnChar_of_no_sep (sep : Char) (l : List Char)
    (h : ∀ c ∈ l, c ≠ sep) : splitOnChar sep l = [l] := by
  induction l with
  | nil => rfl
  | cons c cs ih =>
    have hc : c ≠ sep := h c (List.mem_cons_self c cs)
    have ih' := ih (fun x hx => h x (List.mem_cons_of_mem c hx))
    rw [splitOnChar, if_neg hc, ih']

theorem parseAlignedFrame_mkFilename (a s : ℕ) (name : List Char) :
    parseAlignedFrame (mkFilename a s name) = some a := by
  have hsuf : pngExt <:+ mkFilename a s name := by
    refine ⟨pad6 a ++ '_' :: (pad6 s ++ '_' :: name), ?_⟩
    unfold mkFilename
    simp [List.append_assoc]
  have hnu1 : ∀ c ∈ pad6 a, c ≠ '_' :=
    fun c hc => digit_ne_of_not_digit (pad6_digits a c hc) rfl
  have hnu2 : ∀ c ∈ pad6 s, c ≠ '_' :=
    fun c hc => digit_ne_of_not_digit (pad6_digits s c hc) rfl
  have hsplit : splitOnChar '_' (mkFilename a s name) =
      pad6 a :: pad6 s :: splitOnChar '_' (name ++ pngExt) := by
    unfold mkFilename
    rw [splitOnChar_append_sep '_' (pad6 a) _ hnu1,
      splitOnChar_append_sep '_' (pad6 s) _ hnu2]
  unfold parseAlignedFrame
  rw [if_pos hsuf, hsplit]
  exact parseDecimal_pad6 a

/-- C5: reconstructing the frame set from any filesystem listing of the
files written as `{aligned:06d}_{source:06d}_{name}.png` recovers
exactly the distinct aligned frames that were written, sorted ascending,
independently of the listing order. -/
theorem scanFolderFrames_roundtrip (writes : List (ℕ × ℕ × List Char))
    (files : List (List Char))
    (hperm : List.Perm files (writes.map (fun w => mkFilename w.1 w.2.1 w.2.2))) :
    List.Sorted (· ≤ ·) (scanFolderFrames files) ∧
      (scanFolderFrames files).Nodup ∧
      (∀ a, a ∈ scanFolderFrames files ↔ a ∈ writes.map (fun w => w.1)) ∧
      scanFolderFrames files =
        List.insertionSort (· ≤ ·) (writes.map (fun w => w.1)).dedup := by
  have hmap : (writes.map (fun w => mkFilename w.1 w.2.1 w.2.2)).filterMap
      parseAlignedFrame = writes.map (fun w => w.1) := by
    rw [List.filterMap_map]
    have : (parseAlignedFrame ∘ fun w : ℕ × ℕ × List Char =>
        mkFilename w.1 w.2.1 w.2.2) = some ∘ (fun w : ℕ × ℕ × List Char => w.1) := by
      funext w
      exact parseAlignedFrame_mkFilename w.1 w.2.1 w.2.2
    rw [this, List.filterMap_eq_map]
  have h1 : List.Perm (files.filterMap parseAlignedFrame)
      (writes.map (fun w => w.1)) := by
    rw [← hmap]
    exact hperm.filterMap parseAlignedFrame
  have h2 : List.Perm (files.filterMap parseAlignedFrame).dedup
      (writes.map (fun w => w.1)).dedup := h1.dedup
  have h3 : List.Perm (scanFolderFrames files)
      (List.insertionSort (· ≤ ·) (writes.map (fun w => w.1)).dedup) := by
    unfold scanFolderFrames
    exact ((List.perm_insertionSort _ _).trans h2).trans
      (List.perm_insertionSort _ _).symm
  refine ⟨List.sorted_insertionSort _ _,
    (List.perm_insertionSort _ _).nodup_iff.mpr (List.nodup_dedup _), ?_, ?_⟩
  · intro a
    unfold scanFolderFrames
    rw [(List.perm_insertionSort _ _).mem_iff, List.mem_dedup, h1.mem_iff]
  · exact List.eq_of_perm_of_sorted h3 (List.sorted_insertionSort _ _)
      (List.sorted_insertionSort _ _)

/-- Witness for C5 on the spec's concrete scenario D: the two filenames
recover the frame set `[100, 250]`. -/
theorem scanFolderFrames_roundtrip_witness :
    scanFolderFrames ["000100_000096_VerA.png".data, "000250_000246_VerA.png".data] =
      [100, 250] := by
  have hEq : ["000100_000096_VerA.png".data, "000250_000246_VerA.png".data] =
      ([(100, 96, "VerA".data), (250, 246, "VerA".data)] :
        List (ℕ × ℕ × List Char)).map (fun w => mkFilename w.1 w.2.1 w.2.2) := by
    decide
  have hpm : List.Perm ["000100_000096_VerA.png".data, "000250_000246_VerA.png".data]
      (([(100, 96, "VerA".data), (250, 246, "VerA".data)] :
        List (ℕ × ℕ × List Char)).map (fun w => mkFilename w.1 w.2.1 w.2.2)) := by
    rw [← hEq]
  have h := (scanFolderFrames_roundtrip [(100, 96, "VerA".data), (250, 246, "VerA".data)]
    _ hpm).2.2.2
  rw [h]
  decide

/-- C8, code evaluated at the failing input: a run recorded at the end
of a fresh sampling pass (an entry without the `folder` key) does not
shield its output directory from the scan — re-scanning that directory
appends a second entry for it, because the duplicate check looks only at
the `folder` key, which fresh-run records omit. -/
theorem scanFolders_duplicate_after_fresh_run :
    (scanFolders
        (recordFreshRun [] "20240101_120000".data 1 [100])
        [("20240101_120000".data, ["000100_000096_VerA.png".data])]).length = 2 ∧
      (recordFreshRun [] "20240101_120000".data 1 [100]).length = 1 ∧
      (scanFolders
          (recordFreshRun [] "20240101_120000".data 1 [100])
          [("20240101_120000".data, ["000100_000096_VerA.png".data])]).map
        (fun h => h.frames) = [[100], [100]] := by
  refine ⟨?_, rfl, ?_⟩ <;> decide

theorem rfind_lower (c : Char) : ∀ l, -1 ≤ rfind c l := by
  intro l
  induction l with
  | nil => norm_num [rfind]
  | cons x xs ih =>
    rw [rfind]
    by_cases h : 0 ≤ rfind c xs
    · rw [if_pos h]
      omega
    · rw [if_neg h]
      by_cases hx : x = c
      · rw [if_pos hx]
        omega
      · rw [if_neg hx]

theorem rfind_get (c : Char) : ∀ l, 0 ≤ rfind c l →
    l.get? (rfind c l).toNat = some c := by
  intro l
  induction l with
  | nil => norm_num [rfind]
  | cons x xs ih =>
    intro hpos
    rw [rfind] at hpos ⊢
    by_cases h : 0 ≤ rfind c xs
    · rw [if_pos h] at hpos ⊢
      have := ih h
      rw [show (rfind c xs + 1).toNat = (rfind c xs).toNat + 1 by omega]
      simpa using this
    · rw [if_neg h] at hpos ⊢
      by_cases hx : x = c
      · rw [if_pos hx] at hpos ⊢
        rw [hx]
        rfl
      · rw [if_neg hx] at hpos
        omega

theorem splitextRoot_take_or_self (s : List Char) :
    splitextRoot s = s ∨
      (0 ≤ rfind '.' s ∧ splitextRoot s = s.take (rfind '.' s).toNat) := by
  unfold splitextRoot
  by_cases h1 : max (rfind '\\' s) (rfind '/' s) < rfind '.' s
  · rw [if_pos h1]
    by_cases h2 : (List.range s.length).any (fun j =>
        decide (max (rfind '\\' s) (rfind '/' s) < (j : ℤ)) &&
          decide ((j : ℤ) < rfind '.' s) && (s.getD j '.' != '.')) = true
    · rw [if_pos h2]
      right
      have hsep := rfind_lower '\\' s
      have hsep2 := rfind_lower '/' s
      exact ⟨by omega, rfl⟩
    · rw [if_neg h2]
      left
      rfl
  · rw [if_neg h1]
    left
    rfl

theorem splitextRoot_splits (s : List Char) :
    ∃ ext, s = splitextRoot s ++ ext ∧ (ext = [] ∨ ∃ t, ext = '.' :: t) := by
  rcases splitextRoot_take_or_self s with h | ⟨hpos, h⟩
  · exact ⟨[], by rw [h, List.append_nil], Or.inl rfl⟩
  · refine ⟨s.drop (rfind '.' s).toNat, by rw [h, List.take_append_drop], Or.inr ?_⟩
    have hget := rfind_get '.' s hpos
    have hlt : (rfind '.' s).toNat < s.length := by
      by_contra hge
      rw [List.get?_eq_none.mpr (by omega)] at hget
      exact Option.noConfusion hget
    obtain ⟨hlt2, hval⟩ := List.get?_eq_some.mp hget
    refine ⟨s.drop ((rfind '.' s).toNat + 1), ?_⟩
    rw [List.drop_eq_getElem_cons hlt]
    congr 1

theorem foldl_map_nil (cs : List Char) :
    cs.foldl (fun acc c => acc.map (fun x => if x = c then '_' else x)) [] = [] := by
  induction cs with
  | nil => rfl
  | cons c cs ih => simpa using ih

theorem foldl_map_cons (cs : List Char) (y : Char) (l : List Char) :
    cs.foldl (fun acc c => acc.map (fun x => if x = c then '_' else x)) (y :: l) =
      cs.foldl (fun v c => if v = c then '_' else v) y ::
        cs.foldl (fun acc c => acc.map (fun x => if x = c then '_' else x)) l := by
  induction cs generalizing y l with
  | nil => rfl
  | cons c cs ih =>
    simp only [List.foldl_cons, List.map_cons]
    exact ih _ _

theorem replace_chain (x : Char) :
    illegalChars.foldl (fun v c => if v = c then '_' else v) x =
      if x ∈ illegalChars then '_' else x := by
  by_cases hx : x ∈ illegalChars
  · rw [if_pos hx]
    simp only [illegalChars, List.mem_cons, List.not_mem_nil, or_false] at hx
    simp only [illegalChars, List.foldl_cons, List.foldl_nil]
    rcases hx with h | h | h | h | h | h | h | h | h <;> subst h <;> rfl
  · rw [if_neg hx]
    simp only [illegalChars, List.mem_cons, List.not_mem_nil, or_false] at hx
    push_neg at hx
    obtain ⟨n1, n2, n3, n4, n5, n6, n7, n8, n9⟩ := hx
    simp only [illegalChars, List.foldl_cons, List.foldl_nil]
    rw [if_neg n1, if_neg n2, if_neg n3, if_neg n4, if_neg n5, if_neg n6,
      if_neg n7, if_neg n8, if_neg n9]

theorem sanitize_foldl_eq_map (l : List Char) :
    illegalChars.foldl
        (fun acc c => acc.map (fun x => if x = c then '_' else x)) l =
      l.map (fun x => if x ∈ illegalChars then '_' else x) := by
  induction l with
  | nil => exact foldl_map_nil illegalChars
  | cons y l ih =>
    rw [foldl_map_cons, ih, List.map_cons, replace_chain]

/-- C9: `sanitize_filename` returns the input with its final extension
(as `os.path.splitext` determines it) removed and every occurrence of a
character of `<>:"/\|?*` replaced by `'_'`; consequently the result
never contains any of those characters. -/
theorem sanitize_filename_spec (s : List Char) :
    (∃ ext, s = splitextRoot s ++ ext ∧ (ext = [] ∨ ∃ t, ext = '.' :: t)) ∧
      sanitize_filename s =
        (splitextRoot s).map (fun x => if x ∈ illegalChars then '_' else x) ∧
      (∀ c ∈ illegalChars, c ∉ sanitize_filename s) := by
  refine ⟨splitextRoot_splits s, sanitize_foldl_eq_map (splitextRoot s), ?_⟩
  intro c hc hmem
  rw [show sanitize_filename s =
      (splitextRoot s).map (fun x => if x ∈ illegalChars then '_' else x) from
    sanitize_foldl_eq_map (splitextRoot s)] at hmem
  obtain ⟨x, _, hEq⟩ := List.mem_map.mp hmem
  by_cases hx : x ∈ illegalChars
  · rw [if_pos hx] at hEq
    subst hEq
    revert hc
    decide
  · rw [if_neg hx] at hEq
    subst hEq
    exact hx hc

theorem dot_not_digit {c : Char} (h : c.isDigit = true) : c ≠ '.' := by
  intro hEq
  rw [hEq] at h
  exact Bool.false_ne_true h

theorem floatOfMatch_regex (l m : List Char)
    (h : regexSearchNumber l = some m) : ∃ v, floatOfMatch m = some v := by
  induction l with
  | nil => simp [regexSearchNumber] at h
  | cons c cs ih =>
    rw [regexSearchNumber] at h
    by_cases hc : c.isDigit
    · rw [if_pos hc, Option.some_inj] at h
      subst h
      unfold matchNumberAt
      have hd1digits : ∀ x ∈ (c :: cs).takeWhile Char.isDigit, x.isDigit = true :=
        fun x hx => List.mem_takeWhile_imp hx
      have hd1nodot : ∀ x ∈ (c :: cs).takeWhile Char.isDigit, x ≠ '.' :=
        fun x hx => dot_not_digit (hd1digits x hx)
      have hd1ne : (c :: cs).takeWhile Char.isDigit ≠ [] := by
        rw [List.takeWhile_cons_of_pos hc]
        simp
      by_cases hif : ((c :: cs).dropWhile Char.isDigit).head? = some '.'
      · rw [if_pos hif]
        have hd2digits : ∀ x ∈
            ((c :: cs).dropWhile Char.isDigit).tail.takeWhile Char.isDigit,
            x.isDigit = true := fun x hx => List.mem_takeWhile_imp hx
        have hd2nodot : ∀ x ∈
            ((c :: cs).dropWhile Char.isDigit).tail.takeWhile Char.isDigit,
            x ≠ '.' := fun x hx => dot_not_digit (hd2digits x hx)
        have hsplit := splitOnChar_append_sep '.' ((c :: cs).takeWhile Char.isDigit)
          (((c :: cs).dropWhile Char.isDigit).tail.takeWhile Char.isDigit) hd1nodot
        rw [splitOnChar_of_no_sep '.' _ hd2nodot] at hsplit
        refine ⟨(digitsVal ((c :: cs).takeWhile Char.isDigit) : ℚ) +
          (digitsVal (((c :: cs).dropWhile Char.isDigit).tail.takeWhile Char.isDigit) : ℚ) /
            (10 : ℚ) ^
              (((c :: cs).dropWhile Char.isDigit).tail.takeWhile Char.isDigit).length, ?_⟩
        simp only [floatOfMatch, hsplit]
        rw [if_pos ⟨Or.inl hd1ne,
          List.all_eq_true.mpr hd1digits, List.all_eq_true.mpr hd2digits⟩]
      · rw [if_neg hif]
        have hsplit := splitOnChar_of_no_sep '.' _ hd1nodot
        refine ⟨(digitsVal ((c :: cs).takeWhile Char.isDigit) : ℚ), ?_⟩
        simp only [floatOfMatch, hsplit]
        rw [if_pos ⟨hd1ne, List.all_eq_true.mpr hd1digits⟩]
    · rw [if_neg hc] at h
      exact ih h

/-- C10: `parse_screenshot_fps` is total and never raises: it returns
the float value of the input when Python's `float()` accepts it,
otherwise the value of the first digit group (with optional decimal
part) found in the text, otherwise the default 25.0 — a non-numeric or
empty setting silently becomes 25.0. -/
theorem parse_screenshot_fps_total (pyFloat : List Char → Option ℚ)
    (s : List Char) :
    (∃ v, parse_screenshot_fps pyFloat s = .ok v) ∧
      (∀ v, pyFloat s = some v → parse_screenshot_fps pyFloat s = .ok v) ∧
      (∀ m, pyFloat s = none → regexSearchNumber s = some m →
        ∃ v, floatOfMatch m = some v ∧ parse_screenshot_fps pyFloat s = .ok v) ∧
      (pyFloat s = none → regexSearchNumber s = none →
        parse_screenshot_fps pyFloat s = .ok 25) := by
  have hok : ∀ v, pyFloat s = some v → parse_screenshot_fps pyFloat s = .ok v := by
    intro v hv
    unfold parse_screenshot_fps
    rw [hv]
  have hstep : pyFloat s = none →
      parse_screenshot_fps pyFloat s =
        (match regexSearchNumber s with
          | some m =>
            match floatOfMatch m with
            | some v => Except.ok v
            | none => Except.error "ValueError"
          | none => Except.ok 25) := by
    intro hpf
    unfold parse_screenshot_fps
    rw [hpf]
  have hmatchcase : ∀ m, pyFloat s = none → regexSearchNumber s = some m →
      ∃ v, floatOfMatch m = some v ∧ parse_screenshot_fps pyFloat s = .ok v := by
    intro m hpf hre
    obtain ⟨v, hv⟩ := floatOfMatch_regex s m hre
    refine ⟨v, hv, ?_⟩
    rw [hstep hpf, hre]
    show (match floatOfMatch m with
      | some v => Except.ok v
      | none => Except.error "ValueError") = Except.ok v
    rw [hv]
  have hdefault : pyFloat s = none → regexSearchNumber s = none →
      parse_screenshot_fps pyFloat s = .ok 25 := by
    intro hpf hre
    rw [hstep hpf, hre]
  refine ⟨?_, hok, hmatchcase, hdefault⟩
  rcases hpf : pyFloat s with _ | v
  · rcases hre : regexSearchNumber s with _ | m
    · exact ⟨25, hdefault hpf hre⟩
    · obtain ⟨v, _, hp⟩ := hmatchcase m hpf hre
      exact ⟨v, hp⟩
  · exact ⟨v, hok v hpf⟩

/-- Witness for C10: a letters-only setting with an unparsable float
falls back to the default 25.0. -/
theorem parse_screenshot_fps_total_witness :
    parse_screenshot_fps (fun _ => none) "abc".data = .ok 25 :=
  (parse_screenshot_fps_total (fun _ => none) "abc".data).2.2.2 rfl (by decide)
